import Mathlib

/-!
Shallow embedding of the trading-ledger core of the BSE dummy trading app
(source file DT.py).  The app keeps a cash balance, a portfolio mapping a
ticker symbol to a position (held quantity and average purchase price) and a
list of pending limit orders.  Market buy and sell execute immediately at the
live price; limit orders are stored and later swept by a settlement pass
against fresh quotes.  Quantities are naturals (the quantity input widget
enforces a minimum of 1) and monetary amounts are modelled exactly as
rationals.
-/

/-- One held position, `{"qty": ..., "avg_price": ...}` in the source. -/
structure Position where
  qty : ℕ
  avg_price : ℚ
deriving DecidableEq

/-- The side of an order, the source strings "buy" / "sell". -/
inductive Side where
  | buy
  | sell
deriving DecidableEq

/-- A pending limit order, `{"ticker", "action", "qty", "target_price"}`. -/
structure LimitOrder where
  ticker : String
  action : Side
  qty : ℕ
  target_price : ℚ
deriving DecidableEq

/-- The portfolio dictionary: ticker keys to positions, insertion ordered. -/
abbrev Portfolio := List (String × Position)

/-- Dictionary read `portfolio.get(sym, ...)` without the default: the first
binding of `s`. -/
def pget : Portfolio → String → Option Position
  | [], _ => none
  | (t, p) :: rest, s => if t = s then some p else pget rest s

/-- Dictionary write `portfolio[sym] = p`: update the existing binding in
place, else append a new binding at the end. -/
def pset : Portfolio → String → Position → Portfolio
  | [], s, p => [(s, p)]
  | (t, q) :: rest, s, p =>
    if t = s then (s, p) :: rest else (t, q) :: pset rest s p

/-- Dictionary delete `del portfolio[sym]`: remove the binding for `s`. -/
def perase : Portfolio → String → Portfolio
  | [], _ => []
  | (t, q) :: rest, s =>
    if t = s then perase rest s else (t, q) :: perase rest s

/-- The session state: portfolio, cash balance, pending limit orders. -/
structure AppState where
  portfolio : Portfolio
  balance : ℚ
  orders : List LimitOrder
deriving DecidableEq

/-- The default position `{"qty": 0, "avg_price": 0}` used by `.get`. -/
def defaultPos : Position := ⟨0, 0⟩

/-- Market-order Buy branch of the Execute Trade handler: reject when
`cost > balance`, else merge the fill into the position at the
volume-weighted average price and debit the balance. -/
def marketBuy (st : AppState) (symbol : String) (qty : ℕ) (ltp : ℚ) :
    Option AppState :=
  let holdings := (pget st.portfolio symbol).getD defaultPos
  let cost : ℚ := (qty : ℚ) * ltp
  if cost > st.balance then
    none
  else
    let new_qty := holdings.qty + qty
    let new_avg :=
      ((holdings.qty : ℚ) * holdings.avg_price + (qty : ℚ) * ltp) / (new_qty : ℚ)
    some { st with
      portfolio := pset st.portfolio symbol ⟨new_qty, new_avg⟩
      balance := st.balance - cost }

/-- Market-order Sell branch of the Execute Trade handler: reject when
`qty > holdings.qty`, else decrement the quantity (deleting the position when
it reaches 0) and credit the balance. -/
def marketSell (st : AppState) (symbol : String) (qty : ℕ) (ltp : ℚ) :
    Option AppState :=
  let holdings := (pget st.portfolio symbol).getD defaultPos
  if qty > holdings.qty then
    none
  else
    let newQty := holdings.qty - qty
    let portfolio1 :=
      if newQty = 0 then perase st.portfolio symbol
      else pset st.portfolio symbol ⟨newQty, holdings.avg_price⟩
    some { st with
      portfolio := portfolio1
      balance := st.balance + (qty : ℚ) * ltp }

/-- The limit branch of the Execute Trade handler: append the pending order
to the book.  The source performs no parameter validation here; the input
widgets constrain quantity to at least 1 and the target price to at least 0. -/
def submitLimitOrder (st : AppState) (ticker : String) (action : Side)
    (qty : ℕ) (target_price : ℚ) : AppState :=
  { st with orders := st.orders ++ [⟨ticker, action, qty, target_price⟩] }

/-- One iteration of the loop in `process_limit_orders`: evaluate a single
pending order against the quote source.  Returns the updated state, the
orders this iteration appends to `remaining` (the order itself when it stays
pending, nothing when it executes) and the `changed` flag contribution. -/
def processOrderStep (quotes : String → Option ℚ) (st : AppState)
    (order : LimitOrder) : AppState × List LimitOrder × Bool :=
  match quotes order.ticker with
  | none => (st, [order], false)
  | some ltp =>
    if (order.action = Side.buy ∧ ltp ≤ order.target_price) ∨
        (order.action = Side.sell ∧ ltp ≥ order.target_price) then
      let p := (pget st.portfolio order.ticker).getD defaultPos
      match order.action with
      | Side.buy =>
        let cost : ℚ := (order.qty : ℚ) * ltp
        if cost ≤ st.balance then
          let new_qty := p.qty + order.qty
          let new_avg :=
            ((p.qty : ℚ) * p.avg_price + (order.qty : ℚ) * ltp) / (new_qty : ℚ)
          ({ st with
              portfolio := pset st.portfolio order.ticker ⟨new_qty, new_avg⟩
              balance := st.balance - cost }, [], true)
        else
          (st, [order], false)
      | Side.sell =>
        if p.qty ≥ order.qty then
          let newQty := p.qty - order.qty
          let portfolio1 :=
            if newQty > 0 then pset st.portfolio order.ticker ⟨newQty, p.avg_price⟩
            else perase st.portfolio order.ticker
          ({ st with
              portfolio := portfolio1
              balance := st.balance + (order.qty : ℚ) * ltp }, [], true)
        else
          (st, [order], false)
    else
      (st, [order], false)

/-- The loop of `process_limit_orders` over a list of pending orders,
threading the state and accumulating the `remaining` list and the `changed`
flag in order. -/
def processOrdersList (quotes : String → Option ℚ) :
    AppState → List LimitOrder → AppState × List LimitOrder × Bool
  | st, [] => (st, [], false)
  | st, o :: rest =>
    let r1 := processOrderStep quotes st o
    let r2 := processOrdersList quotes r1.1 rest
    (r2.1, r1.2.1 ++ r2.2.1, r1.2.2 || r2.2.2)

/-- The function `process_limit_orders`: sweep the pending book against the quote source,
store the surviving orders back as the pending book, and report whether
anything executed. -/
def processLimitOrders (quotes : String → Option ℚ) (st : AppState) :
    AppState × Bool :=
  let r := processOrdersList quotes st st.orders
  ({ r.1 with orders := r.2.1 }, r.2.2)

/-- The orders a sweep executes (the iterations that set `changed`), in
evaluation order. -/
def executedOrders (quotes : String → Option ℚ) :
    AppState → List LimitOrder → List LimitOrder
  | _, [] => []
  | st, o :: rest =>
    let r1 := processOrderStep quotes st o
    if r1.2.2 then o :: executedOrders quotes r1.1 rest
    else executedOrders quotes r1.1 rest

/-- The Reset Portfolio handler: empty portfolio, balance restored to the
fixed starting amount, and the pending-order file removed (empty book). -/
def resetPortfolio (_st : AppState) : AppState :=
  { portfolio := [], balance := 1000000, orders := [] }

/-- One market execution, for reasoning about execution sequences. -/
inductive TradeStep where
  | buy (symbol : String) (qty : ℕ) (price : ℚ)
  | sell (symbol : String) (qty : ℕ) (price : ℚ)

/-- The quantity of a trade step. -/
def TradeStep.qty : TradeStep → ℕ
  | .buy _ q _ => q
  | .sell _ q _ => q

/-- The price of a trade step. -/
def TradeStep.price : TradeStep → ℚ
  | .buy _ _ p => p
  | .sell _ _ p => p

/-- Whether a trade step is a buy. -/
def TradeStep.isBuy : TradeStep → Bool
  | .buy _ _ _ => true
  | .sell _ _ _ => false

/-- Apply one market execution. -/
def applyTrade (st : AppState) : TradeStep → Option AppState
  | .buy s q p => marketBuy st s q p
  | .sell s q p => marketSell st s q p

/-- Apply a sequence of market executions; any rejection aborts. -/
def applyTrades (st : AppState) : List TradeStep → Option AppState
  | [] => some st
  | t :: ts => (applyTrade st t).bind (fun st1 => applyTrades st1 ts)

/-- The summed notional `quantity * price` of a list of trade steps. -/
def totalCost (ts : List TradeStep) : ℚ :=
  (ts.map (fun t => (t.qty : ℚ) * t.price)).sum

/-- Every position in a portfolio has strictly positive quantity. -/
def positivePositions (pf : Portfolio) : Prop :=
  ∀ s p, pget pf s = some p → 0 < p.qty

/-! ## Dictionary lemmas -/

theorem pget_pset_self (pf : Portfolio) (s : String) (p : Position) :
    pget (pset pf s p) s = some p := by
  induction pf with
  | nil => simp [pset, pget]
  | cons kv rest ih =>
    obtain ⟨t, q⟩ := kv
    by_cases h : t = s
    · subst h
      simp [pset, pget]
    · simp [pset, pget, h, ih]

theorem pget_pset_ne (pf : Portfolio) (s t : String) (p : Position)
    (hts : t ≠ s) : pget (pset pf s p) t = pget pf t := by
  induction pf with
  | nil => simp [pset, pget, Ne.symm hts]
  | cons kv rest ih =>
    obtain ⟨u, q⟩ := kv
    by_cases h : u = s
    · subst h
      simp [pset, pget, Ne.symm hts]
    · by_cases h2 : u = t
      · subst h2
        simp [pset, pget, h]
      · simp [pset, pget, h, h2, ih]

theorem pget_perase_self (pf : Portfolio) (s : String) :
    pget (perase pf s) s = none := by
  induction pf with
  | nil => simp [perase, pget]
  | cons kv rest ih =>
    obtain ⟨t, q⟩ := kv
    by_cases h : t = s
    · simpa [perase, h] using ih
    · simpa [perase, pget, h] using ih

theorem pget_perase_ne (pf : Portfolio) (s t : String) (hts : t ≠ s) :
    pget (perase pf s) t = pget pf t := by
  induction pf with
  | nil => simp [perase, pget]
  | cons kv rest ih =>
    obtain ⟨u, q⟩ := kv
    by_cases h : u = s
    · subst h
      simpa [perase, pget, Ne.symm hts] using ih
    · by_cases h2 : u = t
      · subst h2
        simp [perase, pget, h]
      · simpa [perase, pget, h, h2] using ih

/-! ## Characterisation of the market-order branches -/

theorem marketBuy_eq_none_iff (st : AppState) (sym : String) (q : ℕ) (p : ℚ) :
    marketBuy st sym q p = none ↔ st.balance < (q : ℚ) * p := by
  simp only [marketBuy]
  by_cases h : (q : ℚ) * p > st.balance
  · rw [if_pos h]
    simpa using h
  · rw [if_neg h]
    simpa using h

theorem marketBuy_eq_some_iff (st : AppState) (sym : String) (q : ℕ) (p : ℚ)
    (st1 : AppState) (h0 : Position)
    (hh : (pget st.portfolio sym).getD defaultPos = h0) :
    marketBuy st sym q p = some st1 ↔
      (q : ℚ) * p ≤ st.balance ∧
      st1 = { st with
        portfolio := pset st.portfolio sym
          ⟨h0.qty + q,
           ((h0.qty : ℚ) * h0.avg_price + (q : ℚ) * p) / ((h0.qty + q : ℕ) : ℚ)⟩
        balance := st.balance - (q : ℚ) * p } := by
  simp only [marketBuy, hh]
  by_cases h : (q : ℚ) * p > st.balance
  · rw [if_pos h]
    constructor
    · intro hc
      exact absurd hc (by simp)
    · rintro ⟨hle, _⟩
      exact absurd hle (not_le.mpr h)
  · rw [if_neg h]
    simp [not_lt.mp h, eq_comm]

theorem marketSell_eq_none_iff (st : AppState) (sym : String) (q : ℕ) (p : ℚ) :
    marketSell st sym q p = none ↔
      ((pget st.portfolio sym).getD defaultPos).qty < q := by
  simp only [marketSell]
  by_cases h : q > ((pget st.portfolio sym).getD defaultPos).qty
  · rw [if_pos h]
    simpa using h
  · rw [if_neg h]
    simpa using h

theorem marketSell_eq_some_iff (st : AppState) (sym : String) (q : ℕ) (p : ℚ)
    (st1 : AppState) (h0 : Position)
    (hh : (pget st.portfolio sym).getD defaultPos = h0) :
    marketSell st sym q p = some st1 ↔
      q ≤ h0.qty ∧
      st1 = { st with
        portfolio :=
          if h0.qty - q = 0 then perase st.portfolio sym
          else pset st.portfolio sym ⟨h0.qty - q, h0.avg_price⟩
        balance := st.balance + (q : ℚ) * p } := by
  simp only [marketSell, hh]
  by_cases h : q > h0.qty
  · rw [if_pos h]
    constructor
    · intro hc
      exact absurd hc (by simp)
    · rintro ⟨hle, _⟩
      exact absurd hle (not_le.mpr h)
  · rw [if_neg h]
    simp [not_lt.mp h, eq_comm]

/-! ## Characterisation of one settlement-loop iteration -/

theorem step_quote_none (quotes : String → Option ℚ) (st : AppState)
    (o : LimitOrder) (hq : quotes o.ticker = none) :
    processOrderStep quotes st o = (st, [o], false) := by
  simp [processOrderStep, hq]

theorem step_not_triggered (quotes : String → Option ℚ) (st : AppState)
    (o : LimitOrder) (ltp : ℚ) (hq : quotes o.ticker = some ltp)
    (hcond : ¬ ((o.action = Side.buy ∧ ltp ≤ o.target_price) ∨
        (o.action = Side.sell ∧ ltp ≥ o.target_price))) :
    processOrderStep quotes st o = (st, [o], false) := by
  simp only [processOrderStep, hq]
  rw [if_neg hcond]

theorem step_buy_exec (quotes : String → Option ℚ) (st : AppState)
    (o : LimitOrder) (ltp : ℚ) (p0 : Position)
    (hq : quotes o.ticker = some ltp) (hact : o.action = Side.buy)
    (hle : ltp ≤ o.target_price)
    (hp : (pget st.portfolio o.ticker).getD defaultPos = p0)
    (hafford : (o.qty : ℚ) * ltp ≤ st.balance) :
    processOrderStep quotes st o =
      ({ st with
          portfolio := pset st.portfolio o.ticker
            ⟨p0.qty + o.qty,
             ((p0.qty : ℚ) * p0.avg_price + (o.qty : ℚ) * ltp) /
               ((p0.qty + o.qty : ℕ) : ℚ)⟩
          balance := st.balance - (o.qty : ℚ) * ltp }, [], true) := by
  simp only [processOrderStep, hq, hp]
  rw [if_pos (Or.inl ⟨hact, hle⟩)]
  simp only [hact]
  rw [if_pos hafford]

theorem step_buy_unaffordable (quotes : String → Option ℚ) (st : AppState)
    (o : LimitOrder) (ltp : ℚ)
    (hq : quotes o.ticker = some ltp) (hact : o.action = Side.buy)
    (hle : ltp ≤ o.target_price)
    (hnf : ¬ (o.qty : ℚ) * ltp ≤ st.balance) :
    processOrderStep quotes st o = (st, [o], false) := by
  simp only [processOrderStep, hq]
  rw [if_pos (Or.inl ⟨hact, hle⟩)]
  simp only [hact]
  rw [if_neg hnf]

theorem step_sell_exec (quotes : String → Option ℚ) (st : AppState)
    (o : LimitOrder) (ltp : ℚ) (p0 : Position)
    (hq : quotes o.ticker = some ltp) (hact : o.action = Side.sell)
    (hge : ltp ≥ o.target_price)
    (hp : (pget st.portfolio o.ticker).getD defaultPos = p0)
    (hsh : p0.qty ≥ o.qty) :
    processOrderStep quotes st o =
      ({ st with
          portfolio :=
            if p0.qty - o.qty > 0 then
              pset st.portfolio o.ticker ⟨p0.qty - o.qty, p0.avg_price⟩
            else perase st.portfolio o.ticker
          balance := st.balance + (o.qty : ℚ) * ltp }, [], true) := by
  simp only [processOrderStep, hq, hp]
  rw [if_pos (Or.inr ⟨hact, hge⟩)]
  simp only [hact]
  rw [if_pos hsh]

theorem step_sell_no_shares (quotes : String → Option ℚ) (st : AppState)
    (o : LimitOrder) (ltp : ℚ) (p0 : Position)
    (hq : quotes o.ticker = some ltp) (hact : o.action = Side.sell)
    (hge : ltp ≥ o.target_price)
    (hp : (pget st.portfolio o.ticker).getD defaultPos = p0)
    (hsh : ¬ p0.qty ≥ o.qty) :
    processOrderStep quotes st o = (st, [o], false) := by
  simp only [processOrderStep, hq, hp]
  rw [if_pos (Or.inr ⟨hact, hge⟩)]
  simp only [hact]
  rw [if_neg hsh]

theorem step_cases (quotes : String → Option ℚ) (st : AppState)
    (o : LimitOrder) :
    processOrderStep quotes st o = (st, [o], false) ∨
    ∃ st1, processOrderStep quotes st o = (st1, [], true) := by
  cases hq : quotes o.ticker with
  | none => exact Or.inl (step_quote_none quotes st o hq)
  | some ltp =>
    by_cases hcond : (o.action = Side.buy ∧ ltp ≤ o.target_price) ∨
        (o.action = Side.sell ∧ ltp ≥ o.target_price)
    · cases hact : o.action with
      | buy =>
        have hle : ltp ≤ o.target_price := by
          rcases hcond with ⟨_, hle⟩ | ⟨hs, _⟩
          · exact hle
          · rw [hact] at hs; cases hs
        by_cases haff : (o.qty : ℚ) * ltp ≤ st.balance
        · exact Or.inr ⟨_, step_buy_exec quotes st o ltp _ hq hact hle rfl haff⟩
        · exact Or.inl (step_buy_unaffordable quotes st o ltp hq hact hle haff)
      | sell =>
        have hge : ltp ≥ o.target_price := by
          rcases hcond with ⟨hb, _⟩ | ⟨_, hge⟩
          · rw [hact] at hb; cases hb
          · exact hge
        by_cases hsh : ((pget st.portfolio o.ticker).getD defaultPos).qty ≥ o.qty
        · exact Or.inr ⟨_, step_sell_exec quotes st o ltp _ hq hact hge rfl hsh⟩
        · exact Or.inl (step_sell_no_shares quotes st o ltp _ hq hact hge rfl hsh)
    · exact Or.inl (step_not_triggered quotes st o ltp hq hcond)

theorem step_exec_inv (quotes : String → Option ℚ) (st : AppState)
    (o : LimitOrder) (st1 : AppState) (ch : Bool) (p0 : Position)
    (h : processOrderStep quotes st o = (st1, [], ch))
    (hp : (pget st.portfolio o.ticker).getD defaultPos = p0) :
    ∃ ltp, quotes o.ticker = some ltp ∧ ch = true ∧
      ((o.action = Side.buy ∧ ltp ≤ o.target_price ∧
          (o.qty : ℚ) * ltp ≤ st.balance ∧
          st1 = { st with
            portfolio := pset st.portfolio o.ticker
              ⟨p0.qty + o.qty,
               ((p0.qty : ℚ) * p0.avg_price + (o.qty : ℚ) * ltp) /
                 ((p0.qty + o.qty : ℕ) : ℚ)⟩
            balance := st.balance - (o.qty : ℚ) * ltp }) ∨
       (o.action = Side.sell ∧ o.target_price ≤ ltp ∧ o.qty ≤ p0.qty ∧
          st1 = { st with
            portfolio :=
              if p0.qty - o.qty > 0 then
                pset st.portfolio o.ticker ⟨p0.qty - o.qty, p0.avg_price⟩
              else perase st.portfolio o.ticker
            balance := st.balance + (o.qty : ℚ) * ltp })) := by
  cases hq : quotes o.ticker with
  | none =>
    rw [step_quote_none quotes st o hq] at h
    simp at h
  | some ltp =>
    refine ⟨ltp, rfl, ?_⟩
    by_cases hcond : (o.action = Side.buy ∧ ltp ≤ o.target_price) ∨
        (o.action = Side.sell ∧ ltp ≥ o.target_price)
    · cases hact : o.action with
      | buy =>
        have hle : ltp ≤ o.target_price := by
          rcases hcond with ⟨_, hle⟩ | ⟨hs, _⟩
          · exact hle
          · rw [hact] at hs; cases hs
        by_cases haff : (o.qty : ℚ) * ltp ≤ st.balance
        · rw [step_buy_exec quotes st o ltp p0 hq hact hle hp haff] at h
          simp only [Prod.mk.injEq] at h
          obtain ⟨hst, -, hch⟩ := h
          exact ⟨hch.symm, Or.inl ⟨rfl, hle, haff, hst.symm⟩⟩
        · rw [step_buy_unaffordable quotes st o ltp hq hact hle haff] at h
          simp at h
      | sell =>
        have hge : ltp ≥ o.target_price := by
          rcases hcond with ⟨hb, _⟩ | ⟨_, hge⟩
          · rw [hact] at hb; cases hb
          · exact hge
        by_cases hsh : p0.qty ≥ o.qty
        · rw [step_sell_exec quotes st o ltp p0 hq hact hge hp hsh] at h
          simp only [Prod.mk.injEq] at h
          obtain ⟨hst, -, hch⟩ := h
          exact ⟨hch.symm, Or.inr ⟨rfl, hge, hsh, hst.symm⟩⟩
        · rw [step_sell_no_shares quotes st o ltp p0 hq hact hge hp hsh] at h
          simp at h
    · rw [step_not_triggered quotes st o ltp hq hcond] at h
      simp at h

theorem step_orders_unchanged (quotes : String → Option ℚ) (st : AppState)
    (o : LimitOrder) :
    ((processOrderStep quotes st o).1).orders = st.orders := by
  rcases step_cases quotes st o with h | ⟨st1, h⟩
  · rw [h]
  · rcases step_exec_inv quotes st o st1 true
        ((pget st.portfolio o.ticker).getD defaultPos) h rfl with
      ⟨ltp, hq, -, ⟨-, -, -, hst⟩ | ⟨-, -, -, hst⟩⟩ <;>
    · rw [h]
      subst hst
      rfl

theorem step_balance_nonneg (quotes : String → Option ℚ) (st : AppState)
    (o : LimitOrder) (hb : 0 ≤ st.balance)
    (hqpos : ∀ s x, quotes s = some x → 0 ≤ x) :
    0 ≤ ((processOrderStep quotes st o).1).balance := by
  rcases step_cases quotes st o with h | ⟨st1, h⟩
  · rw [h]
    exact hb
  · rcases step_exec_inv quotes st o st1 true
        ((pget st.portfolio o.ticker).getD defaultPos) h rfl with
      ⟨ltp, hq, -, ⟨-, -, haff, hst⟩ | ⟨-, -, -, hst⟩⟩
    · rw [h]
      subst hst
      exact sub_nonneg.mpr haff
    · rw [h]
      subst hst
      exact add_nonneg hb (mul_nonneg (Nat.cast_nonneg _) (hqpos o.ticker ltp hq))

theorem processOrdersList_nil (quotes : String → Option ℚ) (st : AppState) :
    processOrdersList quotes st [] = (st, [], false) := rfl

theorem processOrdersList_cons (quotes : String → Option ℚ) (st : AppState)
    (o : LimitOrder) (rest : List LimitOrder) :
    processOrdersList quotes st (o :: rest) =
      ((processOrdersList quotes (processOrderStep quotes st o).1 rest).1,
       (processOrderStep quotes st o).2.1 ++
         (processOrdersList quotes (processOrderStep quotes st o).1 rest).2.1,
       (processOrderStep quotes st o).2.2 ||
         (processOrdersList quotes (processOrderStep quotes st o).1 rest).2.2) :=
  rfl

theorem remaining_sublist (quotes : String → Option ℚ) :
    ∀ (orders : List LimitOrder) (st : AppState),
      ((processOrdersList quotes st orders).2.1).Sublist orders := by
  intro orders
  induction orders with
  | nil => intro st; simp [processOrdersList]
  | cons o rest ih =>
    intro st
    rw [processOrdersList_cons]
    rcases step_cases quotes st o with h | ⟨st1, h⟩
    · rw [h]
      exact List.Sublist.cons₂ o (ih st)
    · rw [h]
      simpa using List.Sublist.cons o (ih st1)

theorem executed_sublist (quotes : String → Option ℚ) :
    ∀ (orders : List LimitOrder) (st : AppState),
      (executedOrders quotes st orders).Sublist orders := by
  intro orders
  induction orders with
  | nil => intro st; simp [executedOrders]
  | cons o rest ih =>
    intro st
    rcases step_cases quotes st o with h | ⟨st1, h⟩
    · simp only [executedOrders, h]
      exact List.Sublist.cons o (ih st)
    · simp only [executedOrders, h]
      exact List.Sublist.cons₂ o (ih st1)

theorem executed_append_remaining_perm (quotes : String → Option ℚ) :
    ∀ (orders : List LimitOrder) (st : AppState),
      List.Perm
        (executedOrders quotes st orders ++ (processOrdersList quotes st orders).2.1)
        orders := by
  intro orders
  induction orders with
  | nil => intro st; simp [executedOrders, processOrdersList]
  | cons o rest ih =>
    intro st
    rw [processOrdersList_cons]
    rcases step_cases quotes st o with h | ⟨st1, h⟩
    · simp only [executedOrders, h, List.cons_append, List.singleton_append]
      exact List.Perm.trans List.perm_middle (List.Perm.cons o (ih st))
    · simp only [executedOrders, h, List.nil_append, List.cons_append]
      exact List.Perm.cons o (ih st1)

theorem processOrdersList_balance_nonneg (quotes : String → Option ℚ)
    (hqpos : ∀ s x, quotes s = some x → 0 ≤ x) :
    ∀ (orders : List LimitOrder) (st : AppState), 0 ≤ st.balance →
      0 ≤ ((processOrdersList quotes st orders).1).balance := by
  intro orders
  induction orders with
  | nil => intro st hb; exact hb
  | cons o rest ih =>
    intro st hb
    rw [processOrdersList_cons]
    exact ih _ (step_balance_nonneg quotes st o hb hqpos)

theorem positivePositions_pset (pf : Portfolio) (s : String) (p : Position)
    (hpf : positivePositions pf) (hp : 0 < p.qty) :
    positivePositions (pset pf s p) := by
  intro t q hq
  by_cases hts : t = s
  · subst hts
    rw [pget_pset_self] at hq
    cases hq
    exact hp
  · rw [pget_pset_ne _ _ _ _ hts] at hq
    exact hpf t q hq

theorem positivePositions_perase (pf : Portfolio) (s : String)
    (hpf : positivePositions pf) :
    positivePositions (perase pf s) := by
  intro t q hq
  by_cases hts : t = s
  · subst hts
    rw [pget_perase_self] at hq
    cases hq
  · rw [pget_perase_ne _ _ _ hts] at hq
    exact hpf t q hq

theorem step_positivePositions (quotes : String → Option ℚ) (st : AppState)
    (o : LimitOrder) (hq1 : 1 ≤ o.qty)
    (hpf : positivePositions st.portfolio) :
    positivePositions ((processOrderStep quotes st o).1).portfolio := by
  rcases step_cases quotes st o with h | ⟨st1, h⟩
  · rw [h]
    exact hpf
  · rcases step_exec_inv quotes st o st1 true
        ((pget st.portfolio o.ticker).getD defaultPos) h rfl with
      ⟨ltp, -, -, ⟨-, -, -, hst⟩ | ⟨-, -, -, hst⟩⟩
    · rw [h]
      subst hst
      refine positivePositions_pset _ _ _ hpf ?_
      show 0 < ((pget st.portfolio o.ticker).getD defaultPos).qty + o.qty
      omega
    · rw [h]
      subst hst
      show positivePositions
        (if ((pget st.portfolio o.ticker).getD defaultPos).qty - o.qty > 0 then
          pset st.portfolio o.ticker
            ⟨((pget st.portfolio o.ticker).getD defaultPos).qty - o.qty,
             ((pget st.portfolio o.ticker).getD defaultPos).avg_price⟩
        else perase st.portfolio o.ticker)
      by_cases hz : ((pget st.portfolio o.ticker).getD defaultPos).qty - o.qty > 0
      · rw [if_pos hz]
        exact positivePositions_pset _ _ _ hpf hz
      · rw [if_neg hz]
        exact positivePositions_perase _ _ hpf

theorem processOrdersList_positive (quotes : String → Option ℚ) :
    ∀ (orders : List LimitOrder) (st : AppState),
      (∀ o ∈ orders, 1 ≤ o.qty) → positivePositions st.portfolio →
      positivePositions ((processOrdersList quotes st orders).1).portfolio := by
  intro orders
  induction orders with
  | nil => intro st _ hpf; exact hpf
  | cons o rest ih =>
    intro st hq hpf
    rw [processOrdersList_cons]
    refine ih _ (fun u hu => hq u (by simp [hu])) ?_
    exact step_positivePositions quotes st o (hq o (by simp)) hpf

theorem marketBuy_positive (st : AppState) (sym : String) (q : ℕ) (p : ℚ)
    (st1 : AppState) (hq : 1 ≤ q)
    (hpf : positivePositions st.portfolio)
    (h : marketBuy st sym q p = some st1) :
    positivePositions st1.portfolio := by
  obtain ⟨-, hst⟩ := (marketBuy_eq_some_iff st sym q p st1 _ rfl).mp h
  subst hst
  refine positivePositions_pset _ _ _ hpf ?_
  show 0 < ((pget st.portfolio sym).getD defaultPos).qty + q
  omega

theorem marketSell_positive (st : AppState) (sym : String) (q : ℕ) (p : ℚ)
    (st1 : AppState)
    (hpf : positivePositions st.portfolio)
    (h : marketSell st sym q p = some st1) :
    positivePositions st1.portfolio := by
  obtain ⟨-, hst⟩ := (marketSell_eq_some_iff st sym q p st1 _ rfl).mp h
  subst hst
  show positivePositions
    (if ((pget st.portfolio sym).getD defaultPos).qty - q = 0 then
      perase st.portfolio sym
    else pset st.portfolio sym
      ⟨((pget st.portfolio sym).getD defaultPos).qty - q,
       ((pget st.portfolio sym).getD defaultPos).avg_price⟩)
  by_cases hz : ((pget st.portfolio sym).getD defaultPos).qty - q = 0
  · rw [if_pos hz]
    exact positivePositions_perase _ _ hpf
  · rw [if_neg hz]
    exact positivePositions_pset _ _ _ hpf (Nat.pos_of_ne_zero hz)

theorem applyTrade_balance_nonneg (st : AppState) (t : TradeStep)
    (st1 : AppState) (hb : 0 ≤ st.balance) (hp : 0 < t.price)
    (h : applyTrade st t = some st1) : 0 ≤ st1.balance := by
  cases t with
  | buy s q p =>
    obtain ⟨haff, hst⟩ := (marketBuy_eq_some_iff st s q p st1 _ rfl).mp h
    subst hst
    exact sub_nonneg.mpr haff
  | sell s q p =>
    obtain ⟨-, hst⟩ := (marketSell_eq_some_iff st s q p st1 _ rfl).mp h
    subst hst
    exact add_nonneg hb (mul_nonneg (Nat.cast_nonneg q) (le_of_lt hp))

theorem applyTrades_balance_nonneg :
    ∀ (ts : List TradeStep) (st st1 : AppState), 0 ≤ st.balance →
      (∀ t ∈ ts, 0 < t.price) → applyTrades st ts = some st1 →
      0 ≤ st1.balance := by
  intro ts
  induction ts with
  | nil =>
    intro st st1 hb _ h
    cases h
    exact hb
  | cons t rest ih =>
    intro st st1 hb hpos h
    simp only [applyTrades] at h
    cases ha : applyTrade st t with
    | none => rw [ha] at h; cases h
    | some st2 =>
      rw [ha] at h
      simp only [Option.some_bind] at h
      refine ih st2 st1 ?_ (fun u hu => hpos u (by simp [hu])) h
      exact applyTrade_balance_nonneg st t st2 hb (hpos t (by simp)) ha

theorem applyTrades_all_buys_balance :
    ∀ (ts : List TradeStep) (st st1 : AppState),
      (∀ t ∈ ts, t.isBuy = true) → applyTrades st ts = some st1 →
      st1.balance = st.balance - totalCost ts := by
  intro ts
  induction ts with
  | nil =>
    intro st st1 _ h
    cases h
    simp [totalCost]
  | cons t rest ih =>
    intro st st1 hbuy h
    simp only [applyTrades] at h
    cases t with
    | sell s q p =>
      have := hbuy (TradeStep.sell s q p) (by simp)
      simp [TradeStep.isBuy] at this
    | buy s q p =>
      cases ha : marketBuy st s q p with
      | none => rw [show applyTrade st (TradeStep.buy s q p) = none from ha] at h; cases h
      | some st2 =>
        rw [show applyTrade st (TradeStep.buy s q p) = some st2 from ha] at h
        simp only [Option.some_bind] at h
        obtain ⟨-, hst⟩ := (marketBuy_eq_some_iff st s q p st2 _ rfl).mp ha
        have hrec := ih st2 st1 (fun u hu => hbuy u (by simp [hu])) h
        rw [hrec, hst]
        show st.balance - (q : ℚ) * p - totalCost rest =
          st.balance - totalCost (TradeStep.buy s q p :: rest)
        simp only [totalCost, List.map_cons, List.sum_cons, TradeStep.qty,
          TradeStep.price]
        ring

theorem marketBuy_fresh_position (st : AppState) (sym : String) (q : ℕ)
    (p : ℚ) (st1 : AppState) (hnone : pget st.portfolio sym = none)
    (hq : 1 ≤ q) (h : marketBuy st sym q p = some st1) :
    pget st1.portfolio sym = some ⟨q, p⟩ := by
  have hh : (pget st.portfolio sym).getD defaultPos = defaultPos := by
    rw [hnone]
    rfl
  obtain ⟨-, hst⟩ := (marketBuy_eq_some_iff st sym q p st1 defaultPos hh).mp h
  subst hst
  show pget (pset st.portfolio sym _) sym = some ⟨q, p⟩
  rw [pget_pset_self]
  have hne : ((q : ℕ) : ℚ) ≠ 0 := Nat.cast_ne_zero.mpr (by omega)
  simp only [defaultPos, Nat.cast_zero, zero_mul, zero_add, Option.some.injEq]
  rw [mul_div_cancel_left₀ p hne]

theorem marketBuy_merge_position (st : AppState) (sym : String) (q : ℕ)
    (p : ℚ) (oldp : Position) (st1 : AppState)
    (hsome : pget st.portfolio sym = some oldp)
    (h : marketBuy st sym q p = some st1) :
    pget st1.portfolio sym =
      some ⟨oldp.qty + q,
        ((oldp.qty : ℚ) * oldp.avg_price + (q : ℚ) * p) /
          ((oldp.qty + q : ℕ) : ℚ)⟩ := by
  have hh : (pget st.portfolio sym).getD defaultPos = oldp := by
    rw [hsome]
    rfl
  obtain ⟨-, hst⟩ := (marketBuy_eq_some_iff st sym q p st1 oldp hh).mp h
  subst hst
  show pget (pset st.portfolio sym _) sym = _
  rw [pget_pset_self]

/-! ## Claim theorems -/

/-- C1: for every sequence of successful buy and sell executions with positive
quantity and positive price the cash balance never becomes negative: a market
buy whose cost exceeds the current balance is rejected (and only then), every
successful buy debits exactly quantity times price, every successful sell
credits exactly quantity times price, a successful all-buy sequence ends at
the initial balance minus the summed costs, and a settlement sweep against
non-negative quotes preserves a non-negative balance. -/
theorem C1_cash_balance_invariant :
    (∀ (st : AppState) (sym : String) (q : ℕ) (p : ℚ),
        marketBuy st sym q p = none ↔ st.balance < (q : ℚ) * p) ∧
    (∀ (st : AppState) (sym : String) (q : ℕ) (p : ℚ) (st1 : AppState),
        marketBuy st sym q p = some st1 →
        st1.balance = st.balance - (q : ℚ) * p) ∧
    (∀ (st : AppState) (sym : String) (q : ℕ) (p : ℚ) (st1 : AppState),
        marketSell st sym q p = some st1 →
        st1.balance = st.balance + (q : ℚ) * p) ∧
    (∀ (st : AppState) (ts : List TradeStep) (st1 : AppState),
        0 ≤ st.balance → (∀ t ∈ ts, 0 < t.price) →
        applyTrades st ts = some st1 → 0 ≤ st1.balance) ∧
    (∀ (st : AppState) (ts : List TradeStep) (st1 : AppState),
        (∀ t ∈ ts, t.isBuy = true) → applyTrades st ts = some st1 →
        st1.balance = st.balance - totalCost ts) ∧
    (∀ (quotes : String → Option ℚ) (st : AppState),
        0 ≤ st.balance → (∀ s x, quotes s = some x → 0 ≤ x) →
        0 ≤ ((processLimitOrders quotes st).1).balance) := by
  refine ⟨marketBuy_eq_none_iff, ?_, ?_, ?_, ?_, ?_⟩
  · intro st sym q p st1 h
    obtain ⟨-, hst⟩ := (marketBuy_eq_some_iff st sym q p st1 _ rfl).mp h
    subst hst
    rfl
  · intro st sym q p st1 h
    obtain ⟨-, hst⟩ := (marketSell_eq_some_iff st sym q p st1 _ rfl).mp h
    subst hst
    rfl
  · intro st ts st1 hb hpos h
    exact applyTrades_balance_nonneg ts st st1 hb hpos h
  · intro st ts st1 hbuy h
    exact applyTrades_all_buys_balance ts st st1 hbuy h
  · intro quotes st hb hq
    exact processOrdersList_balance_nonneg quotes hq st.orders st hb

/-- C8: reset, applied to any prior state, sets the balance to the fixed
starting amount 1,000,000, empties the holdings and empties the pending order
book, and applying reset twice yields the same state as applying it once. -/
theorem C8_reset_restores_start :
    ∀ st : AppState,
      (resetPortfolio st).balance = 1000000 ∧
      (resetPortfolio st).portfolio = [] ∧
      (resetPortfolio st).orders = [] ∧
      resetPortfolio (resetPortfolio st) = resetPortfolio st :=
  fun _ => ⟨rfl, rfl, rfl, rfl⟩

/-- C9 counterexample: the claim says a non-positive limit price is rejected
as invalid without modifying the order book, but the source accepts a limit
order with target price 0 (the price input widget only enforces a lower bound
of 0) and appends it to the book. -/
theorem C9_counterexample :
    (submitLimitOrder ⟨[], 1000000, []⟩ "TCS.BO" Side.buy 1 0).orders ≠ [] := by
  simp [submitLimitOrder]

/-- C9 (amended): limit-order submission performs no validation of its own:
the input widgets enforce quantity at least 1 and target price at least 0
(zero is accepted, there is no reject-as-invalid path), and for every state
and parameters the handler appends the pending order at the end of the book
in arrival order, checking neither affordability nor holdings: the portfolio
and the balance are untouched whatever their contents. -/
theorem C9_submit_appends :
    ∀ (st : AppState) (t : String) (a : Side) (q : ℕ) (p : ℚ),
      (submitLimitOrder st t a q p).orders = st.orders ++ [⟨t, a, q, p⟩] ∧
      (submitLimitOrder st t a q p).portfolio = st.portfolio ∧
      (submitLimitOrder st t a q p).balance = st.balance :=
  fun _ _ _ _ _ => ⟨rfl, rfl, rfl⟩

/-- C2: every successful buy of q at price p creates the position (q, p) when
no position exists, merges into an existing position (old_qty, old_avg) as
quantity old_qty + q with average cost
(old_qty * old_avg + q * p) / (old_qty + q), and in particular two buys
q1 at p1 then q2 at p2 from no position leave average cost
(q1 * p1 + q2 * p2) / (q1 + q2); the settlement-sweep buy branch applies the
same volume-weighted formula at the observed quote. -/
theorem C2_buy_average_cost :
    (∀ (st : AppState) (sym : String) (q : ℕ) (p : ℚ) (st1 : AppState),
        pget st.portfolio sym = none → 1 ≤ q →
        marketBuy st sym q p = some st1 →
        pget st1.portfolio sym = some ⟨q, p⟩) ∧
    (∀ (st : AppState) (sym : String) (q : ℕ) (p : ℚ) (oldp : Position)
        (st1 : AppState),
        pget st.portfolio sym = some oldp →
        marketBuy st sym q p = some st1 →
        pget st1.portfolio sym =
          some ⟨oldp.qty + q,
            ((oldp.qty : ℚ) * oldp.avg_price + (q : ℚ) * p) /
              ((oldp.qty + q : ℕ) : ℚ)⟩) ∧
    (∀ (st0 : AppState) (sym : String) (q1 q2 : ℕ) (p1 p2 : ℚ)
        (st1 st2 : AppState),
        pget st0.portfolio sym = none → 1 ≤ q1 → 1 ≤ q2 →
        marketBuy st0 sym q1 p1 = some st1 →
        marketBuy st1 sym q2 p2 = some st2 →
        pget st2.portfolio sym =
          some ⟨q1 + q2,
            ((q1 : ℚ) * p1 + (q2 : ℚ) * p2) / ((q1 + q2 : ℕ) : ℚ)⟩) ∧
    (∀ (quotes : String → Option ℚ) (st : AppState) (o : LimitOrder)
        (st1 : AppState) (ch : Bool) (oldp : Position),
        o.action = Side.buy → pget st.portfolio o.ticker = some oldp →
        processOrderStep quotes st o = (st1, [], ch) →
        ∃ ltp, quotes o.ticker = some ltp ∧
          pget st1.portfolio o.ticker =
            some ⟨oldp.qty + o.qty,
              ((oldp.qty : ℚ) * oldp.avg_price + (o.qty : ℚ) * ltp) /
                ((oldp.qty + o.qty : ℕ) : ℚ)⟩) := by
  refine ⟨marketBuy_fresh_position, marketBuy_merge_position, ?_, ?_⟩
  · intro st0 sym q1 q2 p1 p2 st1 st2 hnone hq1 hq2 h1 h2
    have hfresh := marketBuy_fresh_position st0 sym q1 p1 st1 hnone hq1 h1
    have hmerge := marketBuy_merge_position st1 sym q2 p2 ⟨q1, p1⟩ st2 hfresh h2
    exact hmerge
  · intro quotes st o st1 ch oldp hact hsome h
    have hp : (pget st.portfolio o.ticker).getD defaultPos = oldp := by
      rw [hsome]
      rfl
    rcases step_exec_inv quotes st o st1 ch oldp h hp with
      ⟨ltp, hq, -, ⟨-, -, -, hst⟩ | ⟨hs, -, -, -⟩⟩
    · refine ⟨ltp, hq, ?_⟩
      subst hst
      show pget (pset st.portfolio o.ticker _) o.ticker = _
      rw [pget_pset_self]
    · rw [hact] at hs
      cases hs

/-- C3: a successful sell of q from a position holding old_qty at old_avg, in
both the market branch and the settlement-sweep branch, leaves the position
(old_qty - q, old_avg) when q < old_qty, so no sell ever alters the average
cost; a sell mutates only the balance and the one traded symbol: the pending
orders and the bindings of all other symbols are unchanged. -/
theorem C3_sell_preserves_average_cost :
    (∀ (st : AppState) (sym : String) (q : ℕ) (p : ℚ) (oldp : Position)
        (st1 : AppState),
        pget st.portfolio sym = some oldp → q < oldp.qty →
        marketSell st sym q p = some st1 →
        pget st1.portfolio sym = some ⟨oldp.qty - q, oldp.avg_price⟩) ∧
    (∀ (st : AppState) (sym : String) (q : ℕ) (p : ℚ) (st1 : AppState),
        marketSell st sym q p = some st1 →
        st1.orders = st.orders ∧
        ∀ sym2 : String, sym2 ≠ sym →
          pget st1.portfolio sym2 = pget st.portfolio sym2) ∧
    (∀ (quotes : String → Option ℚ) (st : AppState) (o : LimitOrder)
        (st1 : AppState) (ch : Bool) (oldp : Position),
        o.action = Side.sell → pget st.portfolio o.ticker = some oldp →
        o.qty < oldp.qty →
        processOrderStep quotes st o = (st1, [], ch) →
        pget st1.portfolio o.ticker = some ⟨oldp.qty - o.qty, oldp.avg_price⟩) ∧
    (∀ (quotes : String → Option ℚ) (st : AppState) (o : LimitOrder)
        (st1 : AppState) (ch : Bool),
        o.action = Side.sell →
        processOrderStep quotes st o = (st1, [], ch) →
        st1.orders = st.orders ∧
        ∀ sym2 : String, sym2 ≠ o.ticker →
          pget st1.portfolio sym2 = pget st.portfolio sym2) := by
  refine ⟨?_, ?_, ?_, ?_⟩
  · intro st sym q p oldp st1 hsome hlt h
    have hh : (pget st.portfolio sym).getD defaultPos = oldp := by
      rw [hsome]
      rfl
    obtain ⟨-, hst⟩ := (marketSell_eq_some_iff st sym q p st1 oldp hh).mp h
    subst hst
    show pget
      (if oldp.qty - q = 0 then perase st.portfolio sym
       else pset st.portfolio sym ⟨oldp.qty - q, oldp.avg_price⟩) sym = _
    rw [if_neg (by omega), pget_pset_self]
  · intro st sym q p st1 h
    obtain ⟨-, hst⟩ := (marketSell_eq_some_iff st sym q p st1 _ rfl).mp h
    subst hst
    refine ⟨rfl, ?_⟩
    intro sym2 hne
    show pget
      (if ((pget st.portfolio sym).getD defaultPos).qty - q = 0 then
        perase st.portfolio sym
       else pset st.portfolio sym _) sym2 = _
    by_cases hz : ((pget st.portfolio sym).getD defaultPos).qty - q = 0
    · rw [if_pos hz, pget_perase_ne _ _ _ hne]
    · rw [if_neg hz, pget_pset_ne _ _ _ _ hne]
  · intro quotes st o st1 ch oldp hact hsome hlt h
    have hp : (pget st.portfolio o.ticker).getD defaultPos = oldp := by
      rw [hsome]
      rfl
    rcases step_exec_inv quotes st o st1 ch oldp h hp with
      ⟨ltp, hq, -, ⟨hb, -, -, -⟩ | ⟨-, -, -, hst⟩⟩
    · rw [hact] at hb
      cases hb
    · subst hst
      show pget
        (if oldp.qty - o.qty > 0 then
          pset st.portfolio o.ticker ⟨oldp.qty - o.qty, oldp.avg_price⟩
         else perase st.portfolio o.ticker) o.ticker = _
      rw [if_pos (by omega), pget_pset_self]
  · intro quotes st o st1 ch hact h
    rcases step_exec_inv quotes st o st1 ch
        ((pget st.portfolio o.ticker).getD defaultPos) h rfl with
      ⟨ltp, hq, -, ⟨hb, -, -, -⟩ | ⟨-, -, -, hst⟩⟩
    · rw [hact] at hb
      cases hb
    · subst hst
      refine ⟨rfl, ?_⟩
      intro sym2 hne
      show pget
        (if ((pget st.portfolio o.ticker).getD defaultPos).qty - o.qty > 0 then
          pset st.portfolio o.ticker _
         else perase st.portfolio o.ticker) sym2 = _
      by_cases hz :
          ((pget st.portfolio o.ticker).getD defaultPos).qty - o.qty > 0
      · rw [if_pos hz, pget_pset_ne _ _ _ _ hne]
      · rw [if_neg hz, pget_perase_ne _ _ _ hne]

/-- C4: in a settlement sweep an order executes only when a live quote is
available and its trigger holds: a limit buy with limit L executes only when
the observed quote is at most L, a limit sell only when the observed quote is
at least L; and the execution prices at the observed quote, not at L: the
balance moves by quantity times the observed quote and the buy branch merges
the position using the observed quote. -/
theorem C4_limit_trigger_and_fill_price (quotes : String → Option ℚ)
    (st : AppState) (o : LimitOrder) (st1 : AppState) (ch : Bool)
    (h : processOrderStep quotes st o = (st1, [], ch)) :
    ∃ ltp, quotes o.ticker = some ltp ∧
      (o.action = Side.buy → ltp ≤ o.target_price ∧
        st1.balance = st.balance - (o.qty : ℚ) * ltp ∧
        pget st1.portfolio o.ticker =
          some ⟨((pget st.portfolio o.ticker).getD defaultPos).qty + o.qty,
            ((((pget st.portfolio o.ticker).getD defaultPos).qty : ℚ) *
                ((pget st.portfolio o.ticker).getD defaultPos).avg_price +
              (o.qty : ℚ) * ltp) /
              ((((pget st.portfolio o.ticker).getD defaultPos).qty +
                o.qty : ℕ) : ℚ)⟩) ∧
      (o.action = Side.sell → o.target_price ≤ ltp ∧
        st1.balance = st.balance + (o.qty : ℚ) * ltp) := by
  rcases step_exec_inv quotes st o st1 ch
      ((pget st.portfolio o.ticker).getD defaultPos) h rfl with
    ⟨ltp, hq, -, ⟨hact, hle, -, hst⟩ | ⟨hact, hge, -, hst⟩⟩
  · refine ⟨ltp, hq, fun _ => ⟨hle, ?_, ?_⟩, fun hsell => ?_⟩
    · subst hst
      rfl
    · subst hst
      show pget (pset st.portfolio o.ticker _) o.ticker = _
      rw [pget_pset_self]
    · rw [hsell] at hact
      cases hact
  · refine ⟨ltp, hq, fun hbuy => ?_, fun _ => ⟨hge, ?_⟩⟩
    · rw [hbuy] at hact
      cases hact
    · subst hst
      rfl

/-- Concrete settlement scenario used to witness C4: a constant quote source
at 50, an empty portfolio with balance 1000, and a pending limit buy of 2
shares of A.BO with limit price 60. -/
def wQuotes : String → Option ℚ := fun _ => some 50

/-- The pre-state of the witness scenario. -/
def wState : AppState := ⟨[], 1000, []⟩

/-- The pending limit buy order of the witness scenario. -/
def wBuyOrder : LimitOrder := ⟨"A.BO", Side.buy, 2, 60⟩

/-- The post-state of the witness scenario: 2 shares at average cost 50,
balance 900. -/
def wStateAfter : AppState := ⟨[("A.BO", ⟨2, 50⟩)], 900, []⟩

theorem wStep_eval :
    processOrderStep wQuotes wState wBuyOrder = (wStateAfter, [], true) := by
  simp only [processOrderStep, wQuotes, wState, wBuyOrder, wStateAfter,
    pget, pset, defaultPos]
  norm_num

/-- Witness for C4: the hypothesis of `C4_limit_trigger_and_fill_price` is
satisfiable at a concrete executed order, and the conclusion evaluates there. -/
theorem C4_limit_trigger_and_fill_price_witness :
    ∃ ltp, wQuotes wBuyOrder.ticker = some ltp ∧
      (wBuyOrder.action = Side.buy → ltp ≤ wBuyOrder.target_price ∧
        wStateAfter.balance = wState.balance - (wBuyOrder.qty : ℚ) * ltp ∧
        pget wStateAfter.portfolio wBuyOrder.ticker =
          some ⟨((pget wState.portfolio wBuyOrder.ticker).getD defaultPos).qty +
              wBuyOrder.qty,
            ((((pget wState.portfolio wBuyOrder.ticker).getD defaultPos).qty :
                  ℚ) *
                ((pget wState.portfolio
                    wBuyOrder.ticker).getD defaultPos).avg_price +
              (wBuyOrder.qty : ℚ) * ltp) /
              ((((pget wState.portfolio wBuyOrder.ticker).getD defaultPos).qty +
                wBuyOrder.qty : ℕ) : ℚ)⟩) ∧
      (wBuyOrder.action = Side.sell → wBuyOrder.target_price ≤ ltp ∧
        wStateAfter.balance = wState.balance + (wBuyOrder.qty : ℚ) * ltp) :=
  C4_limit_trigger_and_fill_price wQuotes wState wBuyOrder wStateAfter true
    wStep_eval

/-- C5: failures are total no-ops and are isolated: a market buy fails exactly
when the cost exceeds the balance and a market sell exactly when the quantity
exceeds the holding (no state is produced in either case); in a sweep, an
order whose quote is unavailable, whose triggered buy is unaffordable, or
whose triggered sell exceeds the holding is kept pending with the state
unchanged; and such a failing order leaves the processing of every other
order of the sweep exactly as if it were absent. -/
theorem C5_failure_isolation :
    (∀ (st : AppState) (sym : String) (q : ℕ) (p : ℚ),
        marketBuy st sym q p = none ↔ st.balance < (q : ℚ) * p) ∧
    (∀ (st : AppState) (sym : String) (q : ℕ) (p : ℚ),
        marketSell st sym q p = none ↔
          ((pget st.portfolio sym).getD defaultPos).qty < q) ∧
    (∀ (quotes : String → Option ℚ) (st : AppState) (o : LimitOrder),
        quotes o.ticker = none →
        processOrderStep quotes st o = (st, [o], false)) ∧
    (∀ (quotes : String → Option ℚ) (st : AppState) (o : LimitOrder)
        (ltp : ℚ),
        quotes o.ticker = some ltp → o.action = Side.buy →
        ltp ≤ o.target_price → st.balance < (o.qty : ℚ) * ltp →
        processOrderStep quotes st o = (st, [o], false)) ∧
    (∀ (quotes : String → Option ℚ) (st : AppState) (o : LimitOrder)
        (ltp : ℚ),
        quotes o.ticker = some ltp → o.action = Side.sell →
        o.target_price ≤ ltp →
        ((pget st.portfolio o.ticker).getD defaultPos).qty < o.qty →
        processOrderStep quotes st o = (st, [o], false)) ∧
    (∀ (quotes : String → Option ℚ) (st : AppState) (o : LimitOrder)
        (rest : List LimitOrder),
        processOrderStep quotes st o = (st, [o], false) →
        processOrdersList quotes st (o :: rest) =
          ((processOrdersList quotes st rest).1,
           o :: (processOrdersList quotes st rest).2.1,
           (processOrdersList quotes st rest).2.2)) := by
  refine ⟨marketBuy_eq_none_iff, marketSell_eq_none_iff, step_quote_none,
    ?_, ?_, ?_⟩
  · intro quotes st o ltp hq hact hle hnf
    exact step_buy_unaffordable quotes st o ltp hq hact hle (not_le.mpr hnf)
  · intro quotes st o ltp hq hact hge hsh
    exact step_sell_no_shares quotes st o ltp _ hq hact hge rfl
      (not_le.mpr hsh)
  · intro quotes st o rest h
    rw [processOrdersList_cons, h]
    rfl

/-- C6: a settlement sweep evaluates each pending order exactly once in
insertion order against the state updated by earlier executions of the same
sweep (the two recursion equations), the surviving pending list is a sublist
of the original book (original relative order, each order kept at most once),
the executed list is such a sublist too, executed and surviving orders
together are a permutation of the original book (each order settles at most
once and none is both executed and retained), and the sweep stores the
surviving list as the new pending book. -/
theorem C6_sweep_settles_exactly_once :
    (∀ (quotes : String → Option ℚ) (st : AppState),
        processOrdersList quotes st [] = (st, [], false)) ∧
    (∀ (quotes : String → Option ℚ) (st : AppState) (o : LimitOrder)
        (rest : List LimitOrder),
        processOrdersList quotes st (o :: rest) =
          ((processOrdersList quotes (processOrderStep quotes st o).1 rest).1,
           (processOrderStep quotes st o).2.1 ++
             (processOrdersList quotes
               (processOrderStep quotes st o).1 rest).2.1,
           (processOrderStep quotes st o).2.2 ||
             (processOrdersList quotes
               (processOrderStep quotes st o).1 rest).2.2)) ∧
    (∀ (quotes : String → Option ℚ) (st : AppState)
        (orders : List LimitOrder),
        ((processOrdersList quotes st orders).2.1).Sublist orders) ∧
    (∀ (quotes : String → Option ℚ) (st : AppState)
        (orders : List LimitOrder),
        (executedOrders quotes st orders).Sublist orders) ∧
    (∀ (quotes : String → Option ℚ) (st : AppState)
        (orders : List LimitOrder),
        List.Perm
          (executedOrders quotes st orders ++
            (processOrdersList quotes st orders).2.1)
          orders) ∧
    (∀ (quotes : String → Option ℚ) (st : AppState),
        ((processLimitOrders quotes st).1).orders =
          (processOrdersList quotes st st.orders).2.1) := by
  refine ⟨processOrdersList_nil, processOrdersList_cons, ?_, ?_, ?_, ?_⟩
  · intro quotes st orders
    exact remaining_sublist quotes orders st
  · intro quotes st orders
    exact executed_sublist quotes orders st
  · intro quotes st orders
    exact executed_append_remaining_perm quotes orders st
  · intro quotes st
    rfl

/-- C7: every operation keeps every stored position at strictly positive
quantity: market buys of at least one share and market sells preserve the
invariant, a sell of the full held quantity deletes the binding, a settlement
sweep over orders of at least one share preserves the invariant, reset yields
the empty (trivially positive) holdings, and limit submission leaves holdings
untouched. -/
theorem C7_positions_strictly_positive :
    (∀ (st : AppState) (sym : String) (q : ℕ) (p : ℚ) (st1 : AppState),
        1 ≤ q → positivePositions st.portfolio →
        marketBuy st sym q p = some st1 → positivePositions st1.portfolio) ∧
    (∀ (st : AppState) (sym : String) (q : ℕ) (p : ℚ) (st1 : AppState),
        positivePositions st.portfolio →
        marketSell st sym q p = some st1 → positivePositions st1.portfolio) ∧
    (∀ (st : AppState) (sym : String) (q : ℕ) (p : ℚ) (oldp : Position)
        (st1 : AppState),
        pget st.portfolio sym = some oldp → q = oldp.qty →
        marketSell st sym q p = some st1 →
        pget st1.portfolio sym = none) ∧
    (∀ (quotes : String → Option ℚ) (st : AppState),
        (∀ o ∈ st.orders, 1 ≤ o.qty) → positivePositions st.portfolio →
        positivePositions ((processLimitOrders quotes st).1).portfolio) ∧
    (∀ st : AppState, positivePositions (resetPortfolio st).portfolio) ∧
    (∀ (st : AppState) (t : String) (a : Side) (q : ℕ) (p : ℚ),
        (submitLimitOrder st t a q p).portfolio = st.portfolio) := by
  refine ⟨?_, ?_, ?_, ?_, ?_, ?_⟩
  · intro st sym q p st1 hq hpf h
    exact marketBuy_positive st sym q p st1 hq hpf h
  · intro st sym q p st1 hpf h
    exact marketSell_positive st sym q p st1 hpf h
  · intro st sym q p oldp st1 hsome hfull h
    have hh : (pget st.portfolio sym).getD defaultPos = oldp := by
      rw [hsome]
      rfl
    obtain ⟨-, hst⟩ := (marketSell_eq_some_iff st sym q p st1 oldp hh).mp h
    subst hst
    show pget
      (if oldp.qty - q = 0 then perase st.portfolio sym
       else pset st.portfolio sym ⟨oldp.qty - q, oldp.avg_price⟩) sym = none
    rw [if_pos (by omega), pget_perase_self]
  · intro quotes st hq hpf
    exact processOrdersList_positive quotes st.orders st hq hpf
  · intro st s p hp
    simp [resetPortfolio, pget] at hp
  · intro st t a q p
    rfl

/-- C10: the divisor of the average-cost formula is strictly positive in both
buy paths whenever the requested quantity is at least 1 (the stored or
defaulted quantity being a natural number is non-negative), so the division
is well defined: the stored average certifiably satisfies
avg * new_qty = old_qty * old_avg + qty * price with new_qty positive. -/
theorem C10_average_cost_divisor_positive :
    (∀ (st : AppState) (sym : String) (q : ℕ), 1 ≤ q →
        0 < ((pget st.portfolio sym).getD defaultPos).qty + q) ∧
    (∀ (st : AppState) (sym : String) (q : ℕ) (p : ℚ) (st1 : AppState),
        1 ≤ q → marketBuy st sym q p = some st1 →
        ∃ pos, pget st1.portfolio sym = some pos ∧ 0 < pos.qty ∧
          ((pos.qty : ℕ) : ℚ) ≠ 0 ∧
          pos.avg_price * ((pos.qty : ℕ) : ℚ) =
            (((pget st.portfolio sym).getD defaultPos).qty : ℚ) *
              ((pget st.portfolio sym).getD defaultPos).avg_price +
              (q : ℚ) * p) ∧
    (∀ (quotes : String → Option ℚ) (st : AppState) (o : LimitOrder)
        (st1 : AppState) (ch : Bool),
        1 ≤ o.qty → o.action = Side.buy →
        processOrderStep quotes st o = (st1, [], ch) →
        ∃ ltp pos, quotes o.ticker = some ltp ∧
          pget st1.portfolio o.ticker = some pos ∧ 0 < pos.qty ∧
          pos.avg_price * ((pos.qty : ℕ) : ℚ) =
            (((pget st.portfolio o.ticker).getD defaultPos).qty : ℚ) *
              ((pget st.portfolio o.ticker).getD defaultPos).avg_price +
              (o.qty : ℚ) * ltp) := by
  refine ⟨?_, ?_, ?_⟩
  · intro st sym q hq
    omega
  · intro st sym q p st1 hq h
    obtain ⟨-, hst⟩ := (marketBuy_eq_some_iff st sym q p st1 _ rfl).mp h
    subst hst
    refine ⟨⟨((pget st.portfolio sym).getD defaultPos).qty + q,
      ((((pget st.portfolio sym).getD defaultPos).qty : ℚ) *
          ((pget st.portfolio sym).getD defaultPos).avg_price + (q : ℚ) * p) /
        ((((pget st.portfolio sym).getD defaultPos).qty + q : ℕ) : ℚ)⟩,
      ?_, ?_, ?_, ?_⟩
    · show pget (pset st.portfolio sym _) sym = _
      rw [pget_pset_self]
    · show 0 < ((pget st.portfolio sym).getD defaultPos).qty + q
      omega
    · show ((((pget st.portfolio sym).getD defaultPos).qty + q : ℕ) : ℚ) ≠ 0
      exact Nat.cast_ne_zero.mpr (by omega)
    · show (((((pget st.portfolio sym).getD defaultPos).qty : ℚ) *
          ((pget st.portfolio sym).getD defaultPos).avg_price +
          (q : ℚ) * p) /
          ((((pget st.portfolio sym).getD defaultPos).qty + q : ℕ) : ℚ)) *
          ((((pget st.portfolio sym).getD defaultPos).qty + q : ℕ) : ℚ) = _
      rw [div_mul_cancel₀]
      exact Nat.cast_ne_zero.mpr (by omega)
  · intro quotes st o st1 ch hq hact h
    rcases step_exec_inv quotes st o st1 ch
        ((pget st.portfolio o.ticker).getD defaultPos) h rfl with
      ⟨ltp, hqq, -, ⟨-, -, -, hst⟩ | ⟨hs, -, -, -⟩⟩
    · subst hst
      refine ⟨ltp, ⟨((pget st.portfolio o.ticker).getD defaultPos).qty + o.qty,
        ((((pget st.portfolio o.ticker).getD defaultPos).qty : ℚ) *
            ((pget st.portfolio o.ticker).getD defaultPos).avg_price +
          (o.qty : ℚ) * ltp) /
          ((((pget st.portfolio o.ticker).getD defaultPos).qty +
            o.qty : ℕ) : ℚ)⟩, hqq, ?_, ?_, ?_⟩
      · show pget (pset st.portfolio o.ticker _) o.ticker = _
        rw [pget_pset_self]
      · show 0 < ((pget st.portfolio o.ticker).getD defaultPos).qty + o.qty
        omega
      · show (((((pget st.portfolio o.ticker).getD defaultPos).qty : ℚ) *
            ((pget st.portfolio o.ticker).getD defaultPos).avg_price +
            (o.qty : ℚ) * ltp) /
            ((((pget st.portfolio o.ticker).getD defaultPos).qty +
              o.qty : ℕ) : ℚ)) *
            ((((pget st.portfolio o.ticker).getD defaultPos).qty +
              o.qty : ℕ) : ℚ) = _
        rw [div_mul_cancel₀]
        exact Nat.cast_ne_zero.mpr (by omega)
    · rw [hact] at hs
      cases hs

/-- The worked example of the specification: starting from balance 1,000,000,
buying 10 shares at 100 then 5 at 120 leaves balance 998,400 and the position
(15, 320/3), and then selling all 15 at 130 leaves balance 1,000,350 with
empty holdings. -/
theorem spec_worked_example :
    (marketBuy ⟨[], 1000000, []⟩ "R.BO" 10 100).bind
        (fun st => marketBuy st "R.BO" 5 120) =
      some ⟨[("R.BO", ⟨15, 320 / 3⟩)], 998400, []⟩ ∧
    ((marketBuy ⟨[], 1000000, []⟩ "R.BO" 10 100).bind
        (fun st => marketBuy st "R.BO" 5 120)).bind
        (fun st => marketSell st "R.BO" 15 130) =
      some ⟨[], 1000350, []⟩ := by
  constructor <;>
    norm_num [marketBuy, marketSell, pget, pset, perase, defaultPos]
